import Mathlib

/-!
Verification of `notmuch_propagate_mute.py`: a script that propagates a
manually applied mute command tag (`mute-thread`) down an email conversation
tree, producing the derived `thread-muted` tag and the internal
`mute-processed` bookkeeping tag.  The conversation tree, tag sets and the
recursive `apply_mute` procedure are embedded shallowly below; headers are
raw strings, tag sets are lists of strings with set semantics (membership
tested, addition idempotent), and the Python substring test `x in s` is
modelled by `List.IsInfix` on the character lists.
-/

/-- The command tag, applied manually in the mail client
    (`MUTE_CMD_TAG = 'mute-thread'`). -/
def MUTE_CMD_TAG : String := "mute-thread"

/-- The derived output tag (`MUTED_TAG = 'thread-muted'`). -/
def MUTED_TAG : String := "thread-muted"

/-- The internal bookkeeping tag (`PROCESSED_TAG = 'mute-processed'`). -/
def PROCESSED_TAG : String := "mute-processed"

/-- The Python idiom `needle in hay` on strings: substring containment against the
    raw text, case-sensitive. -/
def strContains (needle hay : String) : Bool :=
  decide (needle.toList <:+: hay.toList)

/-- `class Addressed(enum.IntEnum): NONE = 0; CC = 1; TO = 2`. -/
inductive Addressed where
  | NONE
  | CC
  | TO
deriving DecidableEq, Repr

/-- The underlying integer of the `IntEnum` member. -/
def Addressed.toNat : Addressed → Nat
  | .NONE => 0
  | .CC => 1
  | .TO => 2

/-- The Python idiom `<=` on `IntEnum` values: comparison of the underlying ints. -/
def Addressed.leb (a b : Addressed) : Bool :=
  a.toNat ≤ b.toNat

/-- A message node of a conversation tree: its To and Cc header values (raw
    strings), its tag set, and its ordered list of direct replies. -/
inductive Msg where
  | mk (headerTo headerCc : String) (tags : List String) (replies : List Msg)

/-- The raw To header value (`msg.get_header('To')`). -/
def Msg.headerTo : Msg → String
  | .mk t _ _ _ => t

/-- The raw Cc header value (`msg.get_header('Cc')`). -/
def Msg.headerCc : Msg → String
  | .mk _ c _ _ => c

/-- The tag set of the message (`msg.get_tags()`). -/
def Msg.tags : Msg → List String
  | .mk _ _ ts _ => ts

/-- The direct replies of the message (`msg.get_replies()`). -/
def Msg.replies : Msg → List Msg
  | .mk _ _ _ rs => rs

/-- `Addressed.from_msg`: `TO` if `EMAIL in msg.get_header('To')`, else `CC`
    if `EMAIL in msg.get_header('Cc')`, else `NONE`.  `email` is the `EMAIL`
    global (the `--email` argument). -/
def Addressed.from_msg (email : String) (m : Msg) : Addressed :=
  if strContains email m.headerTo then .TO
  else if strContains email m.headerCc then .CC
  else .NONE

/-- `msg.add_tag(tag)`: idempotent addition to the tag set. -/
def addTag (tag : String) (tags : List String) : List String :=
  if tag ∈ tags then tags else tags ++ [tag]

/-- The per-node mute decision of `apply_mute`, transcribed from its
    if/elif/else chain: command tag wins; otherwise under a muted parent the
    root sentinel (`parent_addressed is None`) gives `False` and a real
    parent gives `addressed <= parent_addressed`; otherwise `False`. -/
def mute_decision (email : String) (parent_muted : Bool)
    (parent_addressed : Option Addressed) (m : Msg) : Bool :=
  if MUTE_CMD_TAG ∈ m.tags then true
  else if parent_muted then
    match parent_addressed with
    | none => false
    | some pa => (Addressed.from_msg email m).leb pa
  else false

mutual

/-- `apply_mute(msg, parent_muted, parent_addressed)`: compute the mute
    decision for this node, add `MUTED_TAG` if it is true, unconditionally
    add `PROCESSED_TAG`, then recurse into every direct reply passing this
    decision of the node and `Addressed` level as the new parent context. -/
def apply_mute (email : String) (parent_muted : Bool)
    (parent_addressed : Option Addressed) : Msg → Msg
  | .mk hTo hCc tags replies =>
    let m := Msg.mk hTo hCc tags replies
    let addressed := Addressed.from_msg email m
    let mute := mute_decision email parent_muted parent_addressed m
    let tags1 := if mute then addTag MUTED_TAG tags else tags
    Msg.mk hTo hCc (addTag PROCESSED_TAG tags1)
      (apply_mute_list email mute (some addressed) replies)

/-- The `for reply in msg.get_replies(): apply_mute(reply, mute, addressed)`
    loop, as a map over the reply list. -/
def apply_mute_list (email : String) (parent_muted : Bool)
    (parent_addressed : Option Addressed) : List Msg → List Msg
  | [] => []
  | r :: rs =>
    apply_mute email parent_muted parent_addressed r ::
      apply_mute_list email parent_muted parent_addressed rs

end

/-- The node of `m` reached by following the path `p` of reply indices
    (the empty path is `m` itself). -/
def Msg.get? : List Nat → Msg → Option Msg
  | [], m => some m
  | i :: p, m =>
    match m.replies[i]? with
    | some r => Msg.get? p r
    | none => none

mutual

/-- Number of nodes of the conversation tree. -/
def Msg.size : Msg → Nat
  | .mk _ _ _ rs => 1 + Msg.sizeList rs

/-- Total number of nodes of a list of trees. -/
def Msg.sizeList : List Msg → Nat
  | [] => 0
  | r :: rs => Msg.size r + Msg.sizeList rs

end

/-- One full run as invoked from `__main__`: `apply_mute(root,
    parent_muted=False, parent_addressed=None)`, iterated `n` times. -/
def iterated_runs (email : String) : Nat → Msg → Msg
  | 0, m => m
  | n + 1, m => iterated_runs email n (apply_mute email false none m)

/-- The tag set of the node of `m` at path `p` (empty if there is no such
    node). -/
def tagsAt (p : List Nat) (m : Msg) : List String :=
  (Msg.get? p m).elim [] Msg.tags

/-- Target address for the three-node scenario of §8 of the spec. -/
def emailEx : String := "me@example.com"

/-- Grandchild B: no command tag, Cc-addressed (AddressingLevel CC). -/
def msgB : Msg := .mk "" "a@b, me@example.com" [] []

/-- Child A: no command tag, Cc-addressed (AddressingLevel CC), with reply B. -/
def msgA : Msg := .mk "" "a@b, me@example.com" [] [msgB]

/-- Root R: command tag, not addressed (AddressingLevel NONE), with reply A. -/
def rootR : Msg := .mk "" "" [MUTE_CMD_TAG] [msgA]

/-! ### Basic lemmas about tags and headers -/

theorem mem_addTag {x t : String} {l : List String} :
    x ∈ addTag t l ↔ x = t ∨ x ∈ l := by
  unfold addTag
  by_cases h : t ∈ l
  · simp only [if_pos h]
    constructor
    · exact Or.inr
    · rintro (rfl | hx)
      · exact h
      · exact hx
  · simp [if_neg h, List.mem_append, or_comm]

theorem mem_addTag_of_mem {x t : String} {l : List String} (h : x ∈ l) :
    x ∈ addTag t l :=
  mem_addTag.mpr (Or.inr h)

theorem self_mem_addTag (t : String) (l : List String) : t ∈ addTag t l :=
  mem_addTag.mpr (Or.inl rfl)

theorem addTag_of_mem {t : String} {l : List String} (h : t ∈ l) :
    addTag t l = l := by
  unfold addTag
  simp [if_pos h]

theorem cmd_ne_muted : MUTE_CMD_TAG ≠ MUTED_TAG := by decide

theorem cmd_ne_processed : MUTE_CMD_TAG ≠ PROCESSED_TAG := by decide

theorem muted_ne_processed : MUTED_TAG ≠ PROCESSED_TAG := by decide

/-! ### Unfolding and accessor lemmas for `apply_mute` -/

theorem apply_mute_mk (e : String) (pm : Bool) (pa : Option Addressed)
    (t c : String) (ts : List String) (rs : List Msg) :
    apply_mute e pm pa (Msg.mk t c ts rs) =
      Msg.mk t c
        (addTag PROCESSED_TAG
          (if mute_decision e pm pa (Msg.mk t c ts rs) then addTag MUTED_TAG ts
           else ts))
        (apply_mute_list e (mute_decision e pm pa (Msg.mk t c ts rs))
          (some (Addressed.from_msg e (Msg.mk t c ts rs))) rs) := by
  rfl

theorem apply_mute_list_eq_map (e : String) (pm : Bool) (pa : Option Addressed)
    (rs : List Msg) :
    apply_mute_list e pm pa rs = rs.map (apply_mute e pm pa) := by
  induction rs with
  | nil => rfl
  | cons r rs ih => simp [apply_mute_list, ih]

theorem headerTo_apply_mute (e : String) (pm : Bool) (pa : Option Addressed)
    (m : Msg) : (apply_mute e pm pa m).headerTo = m.headerTo := by
  cases m
  rfl

theorem headerCc_apply_mute (e : String) (pm : Bool) (pa : Option Addressed)
    (m : Msg) : (apply_mute e pm pa m).headerCc = m.headerCc := by
  cases m
  rfl

theorem tags_apply_mute (e : String) (pm : Bool) (pa : Option Addressed)
    (m : Msg) :
    (apply_mute e pm pa m).tags =
      addTag PROCESSED_TAG
        (if mute_decision e pm pa m then addTag MUTED_TAG m.tags else m.tags) := by
  cases m
  rfl

theorem replies_apply_mute (e : String) (pm : Bool) (pa : Option Addressed)
    (m : Msg) :
    (apply_mute e pm pa m).replies =
      m.replies.map
        (apply_mute e (mute_decision e pm pa m)
          (some (Addressed.from_msg e m))) := by
  cases m
  simp [apply_mute_mk, Msg.replies, apply_mute_list_eq_map]

theorem from_msg_apply_mute (e e' : String) (pm : Bool) (pa : Option Addressed)
    (m : Msg) :
    Addressed.from_msg e (apply_mute e' pm pa m) = Addressed.from_msg e m := by
  unfold Addressed.from_msg
  rw [headerTo_apply_mute, headerCc_apply_mute]

/-- Membership of any tag other than `MUTED_TAG`/`PROCESSED_TAG` is
    unchanged by `apply_mute`; in particular the command tag is. -/
theorem mem_tags_apply_mute_iff {x : String} (hM : x ≠ MUTED_TAG)
    (hP : x ≠ PROCESSED_TAG) (e : String) (pm : Bool) (pa : Option Addressed)
    (m : Msg) : x ∈ (apply_mute e pm pa m).tags ↔ x ∈ m.tags := by
  rw [tags_apply_mute]
  constructor
  · intro h
    rcases mem_addTag.mp h with rfl | h
    · exact absurd rfl hP
    · by_cases hd : mute_decision e pm pa m
      · rw [if_pos hd] at h
        rcases mem_addTag.mp h with rfl | h
        · exact absurd rfl hM
        · exact h
      · rwa [if_neg hd] at h
  · intro h
    apply mem_addTag_of_mem
    by_cases hd : mute_decision e pm pa m
    · rw [if_pos hd]
      exact mem_addTag_of_mem h
    · rwa [if_neg hd]

theorem mute_decision_apply_mute (e : String) (pm : Bool) (pa : Option Addressed)
    (e' : String) (pm' : Bool) (pa' : Option Addressed) (m : Msg) :
    mute_decision e pm pa (apply_mute e' pm' pa' m) = mute_decision e pm pa m := by
  unfold mute_decision
  rw [from_msg_apply_mute]
  by_cases h : MUTE_CMD_TAG ∈ m.tags
  · rw [if_pos h, if_pos ((mem_tags_apply_mute_iff cmd_ne_muted cmd_ne_processed
      e' pm' pa' m).mpr h)]
  · rw [if_neg h, if_neg (fun hc => h ((mem_tags_apply_mute_iff cmd_ne_muted
      cmd_ne_processed e' pm' pa' m).mp hc))]

/-! ### Tree induction -/

theorem msg_induction (P : Msg → Prop)
    (h : ∀ t c ts rs, (∀ r ∈ rs, P r) → P (Msg.mk t c ts rs)) : ∀ m, P m
  | .mk t c ts rs => h t c ts rs (fun r hr => msg_induction P h r)
termination_by m => sizeOf m
decreasing_by
  have := List.sizeOf_lt_of_mem hr
  simp only [Msg.mk.sizeOf_spec]
  omega

/-! ### Path lemma: every node of the output is the image of the node at the
    same path of the input under `apply_mute` in some parent context -/

theorem get?_apply_mute (e : String) :
    ∀ (p : List Nat) (m : Msg) (pm : Bool) (pa : Option Addressed),
    ∃ pm' pa',
      Msg.get? p (apply_mute e pm pa m) =
        Option.map (apply_mute e pm' pa') (Msg.get? p m) := by
  intro p
  induction p with
  | nil =>
    intro m pm pa
    exact ⟨pm, pa, rfl⟩
  | cons i q ih =>
    intro m pm pa
    have hrep := replies_apply_mute e pm pa m
    rcases hri : m.replies[i]? with _ | r
    · refine ⟨pm, pa, ?_⟩
      simp [Msg.get?, hrep, List.getElem?_map, hri]
    · obtain ⟨pm', pa', h⟩ := ih r (mute_decision e pm pa m)
        (some (Addressed.from_msg e m))
      refine ⟨pm', pa', ?_⟩
      simp [Msg.get?, hrep, List.getElem?_map, hri, h]

/-! ### Idempotence -/

theorem from_msg_mk_congr (e t c : String) (ts ts' : List String)
    (rs rs' : List Msg) :
    Addressed.from_msg e (Msg.mk t c ts' rs') =
      Addressed.from_msg e (Msg.mk t c ts rs) := rfl

theorem mute_decision_congr (e : String) (pm : Bool) (pa : Option Addressed)
    (t c : String) (ts ts' : List String) (rs rs' : List Msg)
    (h : MUTE_CMD_TAG ∈ ts' ↔ MUTE_CMD_TAG ∈ ts) :
    mute_decision e pm pa (Msg.mk t c ts' rs') =
      mute_decision e pm pa (Msg.mk t c ts rs) := by
  unfold mute_decision
  rw [from_msg_mk_congr e t c ts ts' rs rs']
  simp only [Msg.tags]
  by_cases hc : MUTE_CMD_TAG ∈ ts
  · rw [if_pos hc, if_pos (h.mpr hc)]
  · rw [if_neg hc, if_neg (fun hx => hc (h.mp hx))]

theorem cmd_mem_out_tags (d : Bool) (ts : List String) :
    MUTE_CMD_TAG ∈ addTag PROCESSED_TAG (if d then addTag MUTED_TAG ts else ts)
      ↔ MUTE_CMD_TAG ∈ ts := by
  cases d <;>
    simp [mem_addTag, cmd_ne_muted, cmd_ne_processed]

theorem addTag_out_idem (d : Bool) (ts : List String) :
    addTag PROCESSED_TAG
      (if d then
        addTag MUTED_TAG
          (addTag PROCESSED_TAG (if d then addTag MUTED_TAG ts else ts))
       else addTag PROCESSED_TAG (if d then addTag MUTED_TAG ts else ts)) =
      addTag PROCESSED_TAG (if d then addTag MUTED_TAG ts else ts) := by
  cases d
  · simp only [Bool.false_eq_true, if_false]
    exact addTag_of_mem (self_mem_addTag _ _)
  · simp only [if_true]
    rw [addTag_of_mem (mem_addTag_of_mem (self_mem_addTag MUTED_TAG ts))]
    exact addTag_of_mem (self_mem_addTag PROCESSED_TAG (addTag MUTED_TAG ts))

theorem apply_mute_list_idem (e : String) (pm : Bool) (pa : Option Addressed)
    (rs : List Msg)
    (h : ∀ r ∈ rs, ∀ pm' pa',
      apply_mute e pm' pa' (apply_mute e pm' pa' r) = apply_mute e pm' pa' r) :
    apply_mute_list e pm pa (apply_mute_list e pm pa rs) =
      apply_mute_list e pm pa rs := by
  induction rs with
  | nil => rfl
  | cons r rs ih =>
    simp only [apply_mute_list]
    rw [h r (by simp) pm pa, ih (fun r' hr' => h r' (by simp [hr']))]

theorem apply_mute_idem (e : String) :
    ∀ (m : Msg) (pm : Bool) (pa : Option Addressed),
    apply_mute e pm pa (apply_mute e pm pa m) = apply_mute e pm pa m := by
  intro m
  induction m using msg_induction with
  | _ t c ts rs ih =>
    intro pm pa
    rw [apply_mute_mk e pm pa t c ts rs]
    rw [apply_mute_mk]
    rw [mute_decision_congr e pm pa t c ts _ rs _ (cmd_mem_out_tags _ ts)]
    rw [from_msg_mk_congr e t c ts _ rs _]
    congr 1
    · exact addTag_out_idem _ ts
    · exact apply_mute_list_idem e _ _ rs (fun r hr => ih r hr)

/-! ### Per-node tag facts for a single `apply_mute` -/

theorem tags_subset_apply_mute (e : String) (pm : Bool) (pa : Option Addressed)
    (m : Msg) {x : String} (hx : x ∈ m.tags) :
    x ∈ (apply_mute e pm pa m).tags := by
  rw [tags_apply_mute]
  apply mem_addTag_of_mem
  by_cases hd : mute_decision e pm pa m
  · rw [if_pos hd]
    exact mem_addTag_of_mem hx
  · rwa [if_neg hd]

theorem tags_apply_mute_sub (e : String) (pm : Bool) (pa : Option Addressed)
    (m : Msg) {x : String} (hx : x ∈ (apply_mute e pm pa m).tags) :
    x ∈ m.tags ∨ x = MUTED_TAG ∨ x = PROCESSED_TAG := by
  rw [tags_apply_mute] at hx
  rcases mem_addTag.mp hx with rfl | hx
  · exact Or.inr (Or.inr rfl)
  · by_cases hd : mute_decision e pm pa m
    · rw [if_pos hd] at hx
      rcases mem_addTag.mp hx with rfl | hx
      · exact Or.inr (Or.inl rfl)
      · exact Or.inl hx
    · rw [if_neg hd] at hx
      exact Or.inl hx

theorem processed_mem_apply_mute (e : String) (pm : Bool) (pa : Option Addressed)
    (m : Msg) : PROCESSED_TAG ∈ (apply_mute e pm pa m).tags := by
  rw [tags_apply_mute]
  exact self_mem_addTag _ _

/-! ### Size preservation -/

theorem sizeList_apply_mute_list (e : String) (pm : Bool) (pa : Option Addressed)
    (rs : List Msg)
    (h : ∀ r ∈ rs, ∀ pm' pa', Msg.size (apply_mute e pm' pa' r) = Msg.size r) :
    Msg.sizeList (apply_mute_list e pm pa rs) = Msg.sizeList rs := by
  induction rs with
  | nil => rfl
  | cons r rs ih =>
    simp only [apply_mute_list, Msg.sizeList]
    rw [h r (by simp) pm pa, ih (fun r' hr' => h r' (by simp [hr']))]

theorem size_apply_mute (e : String) :
    ∀ (m : Msg) (pm : Bool) (pa : Option Addressed),
    Msg.size (apply_mute e pm pa m) = Msg.size m := by
  intro m
  induction m using msg_induction with
  | _ t c ts rs ih =>
    intro pm pa
    rw [apply_mute_mk]
    simp only [Msg.size]
    rw [sizeList_apply_mute_list e _ _ rs (fun r hr => ih r hr)]

/-! ### Iterated runs -/

theorem iterated_runs_add (e : String) (i k : Nat) :
    ∀ m : Msg, iterated_runs e (i + k) m =
      iterated_runs e k (iterated_runs e i m) := by
  induction i with
  | zero =>
    intro m
    rw [Nat.zero_add]
    rfl
  | succ i ih =>
    intro m
    have h1 : i + 1 + k = (i + k) + 1 := by omega
    rw [h1]
    show iterated_runs e (i + k) (apply_mute e false none m) = _
    rw [ih (apply_mute e false none m)]
    rfl

theorem get?_run_mono (e : String) (p : List Nat) (m n : Msg)
    (h : Msg.get? p m = some n) :
    ∃ n', Msg.get? p (apply_mute e false none m) = some n' ∧
      ∀ x ∈ n.tags, x ∈ n'.tags := by
  obtain ⟨pm', pa', hmap⟩ := get?_apply_mute e p m false none
  refine ⟨apply_mute e pm' pa' n, ?_, ?_⟩
  · rw [hmap, h]
    rfl
  · intro x hx
    exact tags_subset_apply_mute e pm' pa' n hx

theorem tags_mono_iterated (e : String) :
    ∀ (k : Nat) (m n : Msg) (p : List Nat), Msg.get? p m = some n →
    ∃ n', Msg.get? p (iterated_runs e k m) = some n' ∧
      ∀ x ∈ n.tags, x ∈ n'.tags := by
  intro k
  induction k with
  | zero =>
    intro m n p h
    exact ⟨n, h, fun x hx => hx⟩
  | succ k ih =>
    intro m n p h
    obtain ⟨n₁, h₁, hsub₁⟩ := get?_run_mono e p m n h
    obtain ⟨n', h', hsub'⟩ := ih (apply_mute e false none m) n₁ p h₁
    exact ⟨n', h', fun x hx => hsub' x (hsub₁ x hx)⟩


/-! ## Claim theorems -/

/-- C1: for a non-root message (real parent addressing level, not the root
    sentinel) that does not carry the command tag, the mute decision is true
    if and only if `parent_muted` holds and the own `Addressed` level
    is at most the parent level in the order NONE < CC < TO. -/
theorem nonroot_mute_decision (e : String) (pm : Bool) (pa : Addressed)
    (m : Msg) (h : MUTE_CMD_TAG ∉ m.tags) :
    mute_decision e pm (some pa) m =
      (pm && (Addressed.from_msg e m).leb pa) := by
  unfold mute_decision
  rw [if_neg h]
  cases pm <;> simp

/-- Witness for `nonroot_mute_decision`: a Cc'd, non-command-tagged message
    under a muted Cc-addressed parent. -/
theorem nonroot_mute_decision_witness :
    mute_decision "a@b" true (some Addressed.CC) (Msg.mk "" "a@b" [] []) =
      (true && (Addressed.from_msg "a@b" (Msg.mk "" "a@b" [] [])).leb
        Addressed.CC) :=
  nonroot_mute_decision "a@b" true Addressed.CC (Msg.mk "" "a@b" [] [])
    (by decide)

/-- C2: a message carrying the command tag always has mute decision true,
    and after `apply_mute` it carries the muted tag, regardless of the
    parent context (including the root sentinel). -/
theorem command_tag_mutes (e : String) (pm : Bool) (pa : Option Addressed)
    (m : Msg) (h : MUTE_CMD_TAG ∈ m.tags) :
    mute_decision e pm pa m = true ∧
      MUTED_TAG ∈ (apply_mute e pm pa m).tags := by
  have hd : mute_decision e pm pa m = true := by
    unfold mute_decision
    rw [if_pos h]
  refine ⟨hd, ?_⟩
  rw [tags_apply_mute, hd, if_pos rfl]
  exact mem_addTag_of_mem (self_mem_addTag _ _)

/-- Witness for `command_tag_mutes`: a command-tagged message under an
    unmuted root context. -/
theorem command_tag_mutes_witness :
    mute_decision "a@b" false none (Msg.mk "" "" [MUTE_CMD_TAG] []) = true ∧
      MUTED_TAG ∈
        (apply_mute "a@b" false none (Msg.mk "" "" [MUTE_CMD_TAG] [])).tags :=
  command_tag_mutes "a@b" false none (Msg.mk "" "" [MUTE_CMD_TAG] [])
    (by decide)

/-- C3 counterexample: the classification is NOT independent of case.  With
    target `me@example.com`, a To header differing only in letter case
    yields `NONE` instead of `TO`: changing only the case of the header
    changes the derived `Addressed` level. -/
theorem addressing_case_cex :
    Addressed.from_msg "me@example.com"
        (Msg.mk "me@example.com" "" [] []) = Addressed.TO ∧
      Addressed.from_msg "me@example.com"
        (Msg.mk "ME@EXAMPLE.COM" "" [] []) = Addressed.NONE := by
  constructor
  · decide
  · decide

/-- C3 amended: the derived `Addressed` level is `TO` exactly when the
    target occurs as a case-sensitive substring of the raw To header text,
    else `CC` exactly when it occurs in the raw Cc header text, else
    `NONE`; the test is raw substring containment, sensitive to case. -/
theorem from_msg_characterisation (e : String) (m : Msg) :
    (Addressed.from_msg e m = Addressed.TO ↔
      e.toList <:+: m.headerTo.toList) ∧
    (Addressed.from_msg e m = Addressed.CC ↔
      ¬(e.toList <:+: m.headerTo.toList) ∧ e.toList <:+: m.headerCc.toList) ∧
    (Addressed.from_msg e m = Addressed.NONE ↔
      ¬(e.toList <:+: m.headerTo.toList) ∧
        ¬(e.toList <:+: m.headerCc.toList)) := by
  have hTo : strContains e m.headerTo = true ↔ e.toList <:+: m.headerTo.toList :=
    decide_eq_true_iff
  have hCc : strContains e m.headerCc = true ↔ e.toList <:+: m.headerCc.toList :=
    decide_eq_true_iff
  unfold Addressed.from_msg
  by_cases h1 : e.toList <:+: m.headerTo.toList <;>
    by_cases h2 : e.toList <:+: m.headerCc.toList
  · rw [if_pos (hTo.mpr h1)]
    simp
    exact ⟨h1, fun hn => absurd h1 hn, fun hn => absurd h1 hn⟩
  · rw [if_pos (hTo.mpr h1)]
    simp
    exact ⟨h1, fun hn => absurd h1 hn, fun hn => absurd h1 hn⟩
  · rw [if_neg (fun hc => h1 (hTo.mp hc)), if_pos (hCc.mpr h2)]
    simp
    exact ⟨h1, ⟨h1, h2⟩, fun _ => h2⟩
  · rw [if_neg (fun hc => h1 (hTo.mp hc)), if_neg (fun hc => h2 (hCc.mp hc))]
    simp
    exact ⟨h1, fun _ => h2, ⟨h1, h2⟩⟩

/-- C4 counterexample: in the §8 scenario (root R command-tagged at level
    NONE, reply A at CC, grandchild B at CC), it is NOT the case that all
    three end up with the muted tag: the level CC of A exceeds the level NONE of R,
    so propagation halts at A. -/
theorem scenario_cex :
    Addressed.from_msg emailEx rootR = Addressed.NONE ∧
      Addressed.from_msg emailEx msgA = Addressed.CC ∧
      Addressed.from_msg emailEx msgB = Addressed.CC ∧
      MUTE_CMD_TAG ∈ rootR.tags ∧
      MUTE_CMD_TAG ∉ msgA.tags ∧
      MUTE_CMD_TAG ∉ msgB.tags ∧
      ¬(MUTED_TAG ∈ tagsAt [] (apply_mute emailEx false none rootR) ∧
        MUTED_TAG ∈ tagsAt [0] (apply_mute emailEx false none rootR) ∧
        MUTED_TAG ∈ tagsAt [0, 0] (apply_mute emailEx false none rootR)) := by
  decide

/-- C4 amended: in that scenario, running propagate from R leaves R with
    the muted tag but neither A nor B with it (the own level CC of A is strictly
    above the level NONE of R, so the mute stops propagating at A, and the
    parent is then unmuted). -/
theorem scenario_result :
    MUTED_TAG ∈ tagsAt [] (apply_mute emailEx false none rootR) ∧
      MUTED_TAG ∉ tagsAt [0] (apply_mute emailEx false none rootR) ∧
      MUTED_TAG ∉ tagsAt [0, 0] (apply_mute emailEx false none rootR) := by
  decide

/-- C5: running propagate twice from the same root with the initial context
    (`parent_muted = False`, root sentinel `None`) produces exactly the
    same tree — in particular the same set of messages carrying the muted
    tag — as running it once. -/
theorem propagate_idempotent (e : String) (m : Msg) :
    apply_mute e false none (apply_mute e false none m) =
      apply_mute e false none m :=
  apply_mute_idem e m false none

/-- C6: across any two runs of the iterated root invocation, tags are only
    ever added: every tag (in particular the muted tag and the processed
    marker) on the node at path `p` after `i` runs is still on the node at
    the same path after any `j ≥ i` runs. -/
theorem muted_processed_monotone (e : String) (m : Msg) (i j : Nat)
    (hij : i ≤ j) (p : List Nat) (n n' : Msg)
    (hn : Msg.get? p (iterated_runs e i m) = some n)
    (hn' : Msg.get? p (iterated_runs e j m) = some n') :
    ∀ x ∈ n.tags, x ∈ n'.tags := by
  obtain ⟨k, rfl⟩ := Nat.exists_eq_add_of_le hij
  rw [iterated_runs_add] at hn'
  obtain ⟨n'', h'', hsub⟩ :=
    tags_mono_iterated e k (iterated_runs e i m) n p hn
  rw [h''] at hn'
  exact (Option.some.inj hn') ▸ hsub

/-- Witness for `muted_processed_monotone`: a root already carrying the
    muted tag keeps it after one run. -/
theorem muted_processed_monotone_witness :
    MUTED_TAG ∈
      (apply_mute "a@b" false none (Msg.mk "" "" [MUTED_TAG] [])).tags :=
  muted_processed_monotone "a@b" (Msg.mk "" "" [MUTED_TAG] []) 0 1
    (by decide) [] (Msg.mk "" "" [MUTED_TAG] [])
    (apply_mute "a@b" false none (Msg.mk "" "" [MUTED_TAG] [])) rfl rfl
    MUTED_TAG (by decide)

/-- C7: invoked on a root with `parent_muted = False` and the root sentinel
    `None`, the mute decision is true exactly when the root itself carries
    the command tag, and the root carries the muted tag afterwards exactly
    when it carries the command tag or already carried the muted tag — a
    root is never muted by inheritance. -/
theorem root_muted_only_by_command (e : String) (m : Msg) :
    (mute_decision e false none m = true ↔ MUTE_CMD_TAG ∈ m.tags) ∧
    (MUTED_TAG ∈ (apply_mute e false none m).tags ↔
      MUTE_CMD_TAG ∈ m.tags ∨ MUTED_TAG ∈ m.tags) := by
  have hdec : mute_decision e false none m =
      decide (MUTE_CMD_TAG ∈ m.tags) := by
    unfold mute_decision
    by_cases h : MUTE_CMD_TAG ∈ m.tags
    · simp [h]
    · simp [h]
  constructor
  · rw [hdec]
    simp
  · rw [tags_apply_mute, hdec]
    by_cases h : MUTE_CMD_TAG ∈ m.tags
    · simp [h, mem_addTag]
    · simp [h, mem_addTag, muted_ne_processed]

/-- C8: with the empty string as target address, the substring test accepts
    every header, so every message is classified `TO`. -/
theorem empty_email_gives_to (m : Msg) : Addressed.from_msg "" m =
    Addressed.TO := by
  have h : strContains "" m.headerTo = true := by
    unfold strContains
    exact decide_eq_true List.nil_infix
  unfold Addressed.from_msg
  rw [if_pos h]

/-- C9: `apply_mute` is a total function on finite conversation trees (its
    Lean definition is accepted by termination checking), it preserves the
    number of nodes and the tree shape, and the node at every existing path
    has been visited: it carries the processed marker afterwards. -/
theorem propagation_terminates (e : String) (pm : Bool)
    (pa : Option Addressed) (m : Msg) :
    Msg.size (apply_mute e pm pa m) = Msg.size m ∧
    (∀ p : List Nat,
      (Msg.get? p (apply_mute e pm pa m)).isSome = (Msg.get? p m).isSome) ∧
    (∀ p : List Nat,
      (Msg.get? p (apply_mute e pm pa m)).elim True
        (fun n' => PROCESSED_TAG ∈ n'.tags)) := by
  refine ⟨size_apply_mute e m pm pa, ?_, ?_⟩
  · intro p
    obtain ⟨pm', pa', hmap⟩ := get?_apply_mute e p m pm pa
    rw [hmap]
    cases Msg.get? p m <;> rfl
  · intro p
    obtain ⟨pm', pa', hmap⟩ := get?_apply_mute e p m pm pa
    rw [hmap]
    cases Msg.get? p m with
    | none => trivial
    | some n => exact processed_mem_apply_mute e pm' pa' n

/-- C10: frame condition per node: the node at any path of the output is
    the node at the same path of the input with headers unchanged, no tag
    removed, no tag other than the muted tag and the processed marker
    added, and the processed marker present. -/
theorem frame_condition (e : String) (pm : Bool) (pa : Option Addressed)
    (m : Msg) (p : List Nat) (n' : Msg)
    (h : Msg.get? p (apply_mute e pm pa m) = some n') :
    ∃ n, Msg.get? p m = some n ∧
      n'.headerTo = n.headerTo ∧ n'.headerCc = n.headerCc ∧
      (∀ x ∈ n.tags, x ∈ n'.tags) ∧
      (∀ x ∈ n'.tags, x ∈ n.tags ∨ x = MUTED_TAG ∨ x = PROCESSED_TAG) ∧
      PROCESSED_TAG ∈ n'.tags := by
  obtain ⟨pm', pa', hmap⟩ := get?_apply_mute e p m pm pa
  rw [hmap] at h
  cases hg : Msg.get? p m with
  | none =>
    rw [hg] at h
    exact absurd h (by simp)
  | some n =>
    rw [hg] at h
    simp only [Option.map_some'] at h
    have h2 := Option.some.inj h
    subst h2
    exact ⟨n, rfl, headerTo_apply_mute e pm' pa' n,
      headerCc_apply_mute e pm' pa' n,
      fun x hx => tags_subset_apply_mute e pm' pa' n hx,
      fun x hx => tags_apply_mute_sub e pm' pa' n hx,
      processed_mem_apply_mute e pm' pa' n⟩

/-- Witness for `frame_condition`: the root node of a one-node tree. -/
theorem frame_condition_witness :
    ∃ n, Msg.get? [] (Msg.mk "" "" [MUTE_CMD_TAG] []) = some n ∧
      (apply_mute "a@b" false none
        (Msg.mk "" "" [MUTE_CMD_TAG] [])).headerTo = n.headerTo ∧
      (apply_mute "a@b" false none
        (Msg.mk "" "" [MUTE_CMD_TAG] [])).headerCc = n.headerCc ∧
      (∀ x ∈ n.tags,
        x ∈ (apply_mute "a@b" false none
          (Msg.mk "" "" [MUTE_CMD_TAG] [])).tags) ∧
      (∀ x ∈ (apply_mute "a@b" false none
          (Msg.mk "" "" [MUTE_CMD_TAG] [])).tags,
        x ∈ n.tags ∨ x = MUTED_TAG ∨ x = PROCESSED_TAG) ∧
      PROCESSED_TAG ∈ (apply_mute "a@b" false none
        (Msg.mk "" "" [MUTE_CMD_TAG] [])).tags :=
  frame_condition "a@b" false none (Msg.mk "" "" [MUTE_CMD_TAG] []) []
    (apply_mute "a@b" false none (Msg.mk "" "" [MUTE_CMD_TAG] [])) rfl
